import Mathlib

/-!
# Verification of the finchdraw differential-drive simulator

Shallow embedding of `src/finchdraw.py` (a two-wheeled "Finch" robot drawing
simulator).  Python floats are modelled as real numbers, `math.sin`/`math.cos`
as `Real.sin`/`Real.cos`, and `math.radians x` as `x * (π / 180)`.  The
mutable robot object is modelled as an explicit state record threaded through
the operations; the file-writing side effect of rendering is abstracted to a
boolean "a render (write attempt) happened" flag, counted across trigger
sequences for the one-shot claims.
-/

namespace FinchDraw

noncomputable section

/-- `WHEELBASE_CM: float = 10.0` from the source. -/
def WHEELBASE_CM : ℝ := 10.0

/-- The `Pose` dataclass: position in cm and heading in radians (0 = +X). -/
structure Pose where
  x : ℝ
  y : ℝ
  th : ℝ

/-- The robot state: current pose, traced path, and the one-shot render flag
`_closed`.  The output file paths carry no information relevant to the claims
and are omitted. -/
structure Finch where
  pose : Pose
  path : List (ℝ × ℝ)
  closed : Bool

/-- `Finch.__init__`: pose at the origin, path `[(0.0, 0.0)]`, not closed. -/
def initFinch : Finch :=
  { pose := ⟨0, 0, 0⟩, path := [(0, 0)], closed := false }

/-- The loop state of `_advance`: the local `x`, `y`, `th` variables plus the
path being appended to. -/
structure AdvSt where
  x : ℝ
  y : ℝ
  th : ℝ
  path : List (ℝ × ℝ)

/-- One iteration of the substep loop in `Finch._advance` (source lines
59-69): straight-line update when `abs(omega) < 1e-9`, otherwise the arc
update with turning radius `R = v/omega if abs(v) > 1e-12 else 0.0`; the
updated `(x, y)` is appended to the path in both branches. -/
def advStep (v ω h : ℝ) (s : AdvSt) : AdvSt :=
  if |ω| < 1e-9 then
    let x := s.x + v * h * Real.cos s.th
    let y := s.y + v * h * Real.sin s.th
    ⟨x, y, s.th, s.path ++ [(x, y)]⟩
  else
    let thNew := s.th + ω * h
    let R := if |v| > 1e-12 then v / ω else 0
    let x := s.x + R * (Real.sin thNew - Real.sin s.th)
    let y := s.y - R * (Real.cos thNew - Real.cos s.th)
    ⟨x, y, thNew, s.path ++ [(x, y)]⟩

/-- `Finch._advance(vl_cm_s, vr_cm_s, dt)`: returns immediately when
`dt <= 0`; otherwise computes `v = 0.5*(vl+vr)`,
`omega = (vr-vl)/WHEELBASE_CM`, `steps = max(1, ceil(dt/0.02))`,
`h = dt/steps`, runs the substep loop, and installs the final pose. -/
def advance (vl vr dt : ℝ) (f : Finch) : Finch :=
  if dt ≤ 0 then f
  else
    let v := 0.5 * (vl + vr)
    let ω := (vr - vl) / WHEELBASE_CM
    let steps : ℕ := max 1 ⌈dt / 0.02⌉₊
    let h := dt / (steps : ℝ)
    let s := (advStep v ω h)^[steps] ⟨f.pose.x, f.pose.y, f.pose.th, f.path⟩
    { pose := ⟨s.x, s.y, s.th⟩, path := s.path, closed := f.closed }

/-- `Finch.wheels(left, right, duration=None)`: a missing duration is a
no-op, otherwise delegates to `_advance`. -/
def wheels (l r : ℝ) (duration : Option ℝ) (f : Finch) : Finch :=
  match duration with
  | none => f
  | some d => advance l r d f

/-- The `direction` literal `"F" | "B"` of `setMove`. -/
inductive MoveDir
  | F
  | B
  deriving DecidableEq

/-- The `direction` literal `"L" | "R"` of `setTurn`. -/
inductive TurnDir
  | L
  | R
  deriving DecidableEq

/-- `Finch.setMove(direction, distance_cm, speed_cm_s)`: signs the distance by
direction, takes `abs` of the speed, returns when the result is `<= 0`,
otherwise drives both wheels at the signed speed for `|distance|/speed`. -/
def setMove (dir : MoveDir) (distance speed : ℝ) (f : Finch) : Finch :=
  let d := distance * (match dir with | MoveDir.F => 1 | MoveDir.B => -1)
  let s := |speed|
  if s ≤ 0 then f
  else
    let dur := |d| / s
    let v := s * (if 0 ≤ d then 1 else -1)
    advance v v dur f

/-- `math.radians`: degrees to radians. -/
def radians (x : ℝ) : ℝ := x * (Real.pi / 180)

/-- `Finch.setTurn(direction, degrees, deg_per_s)`: signs the degrees by
direction, takes `abs` of the angular speed, returns when it is `<= 0`,
otherwise pivots with wheel speeds `∓s`/`±s` where
`s = 0.5*abs(omega)*WHEELBASE_CM`. -/
def setTurn (dir : TurnDir) (degrees degPerS : ℝ) (f : Finch) : Finch :=
  let dg := degrees * (match dir with | TurnDir.L => 1 | TurnDir.R => -1)
  let dps := |degPerS|
  if dps ≤ 0 then f
  else
    let ωsign : ℝ := if 0 ≤ dg then 1 else -1
    let ω := radians dps * ωsign
    let dur := |radians dg| / |ω|
    let s := 0.5 * |ω| * WHEELBASE_CM
    let vl := if 0 ≤ dg then -s else s
    let vr := if 0 ≤ dg then s else -s
    advance vl vr dur f

/-- `Finch._maybe_render`: returns `(new state, whether a render was
attempted)`.  The guard flag is set before the path-length check; a render
attempt means `_write_svg_png` was reached, i.e. one write attempt is made to
the SVG file and at most one to the PNG file. -/
def maybeRender (f : Finch) : Finch × Bool :=
  if f.closed then (f, false)
  else
    let f' : Finch := { pose := f.pose, path := f.path, closed := true }
    if f'.path.length < 2 then (f', false)
    else (f', true)

/-- `Finch.close`: just calls `_maybe_render`; the `atexit` hook registered in
`__init__` is the very same function. -/
def close (f : Finch) : Finch × Bool := maybeRender f

/-- Python `min` over a non-empty list (junk value 0 on `[]`, which the
source never passes: `_bounds` is only reached with a non-empty path). -/
def pyMin : List ℝ → ℝ
  | [] => 0
  | x :: xs => xs.foldl min x

/-- Python `max` over a non-empty list (junk value 0 on `[]`). -/
def pyMax : List ℝ → ℝ
  | [] => 0
  | x :: xs => xs.foldl max x

/-- `Finch._bounds`: `(view_min_x, view_min_y, view_w, view_h)` from the
min/max of the path coordinates, spans guarded by `max(1e-6, ·)` and a 10%
margin on each side. -/
def bounds (path : List (ℝ × ℝ)) : ℝ × ℝ × ℝ × ℝ :=
  let xs := path.map Prod.fst
  let ys := path.map Prod.snd
  let minx := pyMin xs
  let maxx := pyMax xs
  let miny := pyMin ys
  let maxy := pyMax ys
  let dx := max 1e-6 (maxx - minx)
  let dy := max 1e-6 (maxy - miny)
  let margin : ℝ := 0.1
  (minx - dx * margin, miny - dy * margin, dx * (1 + 2 * margin),
    dy * (1 + 2 * margin))

/-- A motion command of the public API (the three methods that can touch pose
and path). -/
inductive Cmd
  | wheels (l r : ℝ) (duration : Option ℝ)
  | move (dir : MoveDir) (distance speed : ℝ)
  | turn (dir : TurnDir) (degrees degPerS : ℝ)

/-- Interpretation of a motion command on the robot state. -/
def applyCmd (c : Cmd) (f : Finch) : Finch :=
  match c with
  | Cmd.wheels l r d => wheels l r d f
  | Cmd.move dir dist speed => setMove dir dist speed f
  | Cmd.turn dir dg dps => setTurn dir dg dps f

/-- An event in the life of a robot instance: a motion command, or a render
trigger (an explicit `close()` call or the `atexit` hook — both invoke
`_maybe_render`). -/
inductive Event
  | cmd (c : Cmd)
  | trigger

/-- One event acting on (robot state, number of render attempts so far). -/
def evStep (s : Finch × ℕ) (e : Event) : Finch × ℕ :=
  match e with
  | Event.cmd c => (applyCmd c s.1, s.2)
  | Event.trigger =>
      let r := maybeRender s.1
      (r.1, s.2 + (if r.2 then 1 else 0))

/-- Run a sequence of events, threading the render-attempt count. -/
def runE (es : List Event) (s : Finch × ℕ) : Finch × ℕ := es.foldl evStep s

/-- Modelled from the words of claim C1 (spec §4.1): one substep of the
claimed integrator, with the arc case using the turning radius `v/omega`
unconditionally (the claim mentions no guard on `v`). -/
def specStep (v ω h : ℝ) (s : AdvSt) : AdvSt :=
  if |ω| < 1e-9 then
    let x := s.x + v * h * Real.cos s.th
    let y := s.y + v * h * Real.sin s.th
    ⟨x, y, s.th, s.path ++ [(x, y)]⟩
  else
    let thNew := s.th + ω * h
    let x := s.x + v / ω * (Real.sin thNew - Real.sin s.th)
    let y := s.y - v / ω * (Real.cos thNew - Real.cos s.th)
    ⟨x, y, thNew, s.path ++ [(x, y)]⟩

/-- Modelled from the words of claim C1: the claimed integrator for a
duration `dt > 0`: `v = (vl+vr)/2`, `omega = (vr-vl)/10`,
`N = ceil(dt/0.02)` substeps of length `h = dt/N`, appending after every
substep. -/
def specAdvance (vl vr dt : ℝ) (f : Finch) : Finch :=
  let v := (vl + vr) / 2
  let ω := (vr - vl) / 10
  let N : ℕ := ⌈dt / 0.02⌉₊
  let h := dt / (N : ℝ)
  let s := (specStep v ω h)^[N] ⟨f.pose.x, f.pose.y, f.pose.th, f.path⟩
  { pose := ⟨s.x, s.y, s.th⟩, path := s.path, closed := f.closed }

/-- The amended claim C1 substep: as `specStep`, but the turning radius is
`v/omega` only when `|v| > 1e-12` and `0` otherwise, as in the source. -/
def specStepG (v ω h : ℝ) (s : AdvSt) : AdvSt :=
  if |ω| < 1e-9 then
    let x := s.x + v * h * Real.cos s.th
    let y := s.y + v * h * Real.sin s.th
    ⟨x, y, s.th, s.path ++ [(x, y)]⟩
  else
    let thNew := s.th + ω * h
    let R := if 1e-12 < |v| then v / ω else 0
    let x := s.x + R * (Real.sin thNew - Real.sin s.th)
    let y := s.y - R * (Real.cos thNew - Real.cos s.th)
    ⟨x, y, thNew, s.path ++ [(x, y)]⟩

/-- The amended claim C1 integrator: as `specAdvance`, with the guarded
turning radius. -/
def specAdvanceG (vl vr dt : ℝ) (f : Finch) : Finch :=
  let v := (vl + vr) / 2
  let ω := (vr - vl) / 10
  let N : ℕ := ⌈dt / 0.02⌉₊
  let h := dt / (N : ℝ)
  let s := (specStepG v ω h)^[N] ⟨f.pose.x, f.pose.y, f.pose.th, f.path⟩
  { pose := ⟨s.x, s.y, s.th⟩, path := s.path, closed := f.closed }

/-- The no-op condition of the amended claim C2: duration `≤ 0` (for
`wheels`: omitted or `≤ 0`; for `setMove`/`setTurn` the computed duration is
`0` exactly when distance resp. degrees is `0`), or supplied speed equal to
`0` (the commands take the absolute value of the speed, so only zero speed
prevents motion). -/
def NoOpCond : Cmd → Prop
  | Cmd.wheels _ _ none => True
  | Cmd.wheels _ _ (some d) => d ≤ 0
  | Cmd.move _ dist speed => speed = 0 ∨ dist = 0
  | Cmd.turn _ dg dps => dps = 0 ∨ dg = 0

/-! ## Lemmas about the substep `advStep` -/

lemma advStep_straight (v h : ℝ) (s : AdvSt) :
    advStep v 0 h s =
      ⟨s.x + v * h * Real.cos s.th, s.y + v * h * Real.sin s.th, s.th,
        s.path ++ [(s.x + v * h * Real.cos s.th, s.y + v * h * Real.sin s.th)]⟩ := by
  rw [advStep, if_pos]
  rw [abs_zero]
  norm_num

lemma advStep_iter_straight (v h : ℝ) (n : ℕ) (s : AdvSt) :
    ((advStep v 0 h)^[n] s).x = s.x + n * (v * h * Real.cos s.th) ∧
      ((advStep v 0 h)^[n] s).y = s.y + n * (v * h * Real.sin s.th) ∧
      ((advStep v 0 h)^[n] s).th = s.th := by
  induction n with
  | zero => simp
  | succ n ih =>
    obtain ⟨hx, hy, hth⟩ := ih
    rw [Function.iterate_succ_apply', advStep_straight]
    refine ⟨?_, ?_, ?_⟩ <;> simp only [hx, hy, hth] <;> push_cast <;> ring

lemma advStep_pivot (ω h : ℝ) (s : AdvSt) :
    (advStep 0 ω h s).x = s.x ∧ (advStep 0 ω h s).y = s.y ∧
      (advStep 0 ω h s).path = s.path ++ [(s.x, s.y)] := by
  rw [advStep]
  split
  · simp
  · have hR : (if |(0 : ℝ)| > 1e-12 then (0 : ℝ) / ω else 0) = 0 := by
      rw [if_neg]
      rw [abs_zero]
      norm_num
    simp [hR]

lemma advStep_iter_pivot (ω h : ℝ) (n : ℕ) (s : AdvSt) :
    ((advStep 0 ω h)^[n] s).x = s.x ∧ ((advStep 0 ω h)^[n] s).y = s.y ∧
      ∀ q ∈ ((advStep 0 ω h)^[n] s).path, q ∈ s.path ∨ q = (s.x, s.y) := by
  induction n with
  | zero => exact ⟨rfl, rfl, fun q hq => Or.inl hq⟩
  | succ n ih =>
    obtain ⟨hx, hy, hp⟩ := ih
    obtain ⟨hx', hy', hp'⟩ := advStep_pivot ω h ((advStep 0 ω h)^[n] s)
    rw [Function.iterate_succ_apply']
    refine ⟨by rw [hx', hx], by rw [hy', hy], fun q hq => ?_⟩
    rw [hp'] at hq
    rcases List.mem_append.mp hq with h1 | h2
    · exact hp q h1
    · rw [hx, hy] at h2
      exact Or.inr (List.mem_singleton.mp h2)

lemma advStep_path_concat (v ω h : ℝ) (s : AdvSt) :
    ∃ a, (advStep v ω h s).path = s.path ++ [a] := by
  rw [advStep]
  split <;> exact ⟨_, rfl⟩

lemma advStep_iter_path_append (v ω h : ℝ) (n : ℕ) (s : AdvSt) :
    ∃ t, ((advStep v ω h)^[n] s).path = s.path ++ t := by
  induction n with
  | zero => exact ⟨[], (List.append_nil s.path).symm⟩
  | succ n ih =>
    obtain ⟨t, ht⟩ := ih
    obtain ⟨a, ha⟩ := advStep_path_concat v ω h ((advStep v ω h)^[n] s)
    rw [Function.iterate_succ_apply', ha, ht]
    exact ⟨t ++ [a], List.append_assoc _ _ _⟩

lemma advStep_length (v ω h : ℝ) (s : AdvSt) :
    (advStep v ω h s).path.length = s.path.length + 1 := by
  obtain ⟨a, ha⟩ := advStep_path_concat v ω h s
  rw [ha, List.length_append, List.length_singleton]

lemma advStep_iter_length (v ω h : ℝ) (n : ℕ) (s : AdvSt) :
    ((advStep v ω h)^[n] s).path.length = s.path.length + n := by
  induction n with
  | zero => rfl
  | succ n ih =>
    rw [Function.iterate_succ_apply', advStep_length, ih, Nat.add_assoc]

lemma advStep_getLast (v ω h : ℝ) (s : AdvSt) :
    (advStep v ω h s).path.getLast? =
      some ((advStep v ω h s).x, (advStep v ω h s).y) := by
  rw [advStep]
  split <;> simp

lemma advStep_iter_getLast (v ω h : ℝ) (n : ℕ) (s : AdvSt)
    (h0 : s.path.getLast? = some (s.x, s.y)) :
    ((advStep v ω h)^[n] s).path.getLast? =
      some (((advStep v ω h)^[n] s).x, ((advStep v ω h)^[n] s).y) := by
  induction n with
  | zero => exact h0
  | succ n ih =>
    rw [Function.iterate_succ_apply']
    exact advStep_getLast v ω h _

/-! ## Lemmas about `advance` -/

lemma advance_nonpos (vl vr dt : ℝ) (f : Finch) (h : dt ≤ 0) :
    advance vl vr dt f = f := by
  rw [advance, if_pos h]

lemma advance_steps_pos (dt : ℝ) : 1 ≤ max 1 ⌈dt / 0.02⌉₊ := le_max_left _ _

lemma advance_closed (vl vr dt : ℝ) (f : Finch) :
    (advance vl vr dt f).closed = f.closed := by
  rw [advance]
  split <;> rfl

lemma advance_path_append (vl vr dt : ℝ) (f : Finch) :
    ∃ t, (advance vl vr dt f).path = f.path ++ t := by
  rw [advance]
  split
  · exact ⟨[], (List.append_nil f.path).symm⟩
  · exact advStep_iter_path_append _ _ _ _ ⟨f.pose.x, f.pose.y, f.pose.th, f.path⟩

lemma advance_length_pos (vl vr dt : ℝ) (f : Finch) (h : 0 < dt) :
    (advance vl vr dt f).path.length = f.path.length + max 1 ⌈dt / 0.02⌉₊ := by
  rw [advance, if_neg (not_le.mpr h)]
  exact advStep_iter_length _ _ _ _ ⟨f.pose.x, f.pose.y, f.pose.th, f.path⟩

lemma advance_getLast (vl vr dt : ℝ) (f : Finch)
    (h0 : f.path.getLast? = some (f.pose.x, f.pose.y)) :
    (advance vl vr dt f).path.getLast? =
      some ((advance vl vr dt f).pose.x, (advance vl vr dt f).pose.y) := by
  rw [advance]
  split
  · exact h0
  · exact advStep_iter_getLast _ _ _ _ ⟨f.pose.x, f.pose.y, f.pose.th, f.path⟩ h0

lemma advance_straight (v dt : ℝ) (f : Finch) (hdt : 0 < dt) :
    (advance v v dt f).pose.x = f.pose.x + v * dt * Real.cos f.pose.th ∧
      (advance v v dt f).pose.y = f.pose.y + v * dt * Real.sin f.pose.th ∧
      (advance v v dt f).pose.th = f.pose.th := by
  rw [advance, if_neg (not_le.mpr hdt)]
  have hv : (0.5 : ℝ) * (v + v) = v := by ring
  have hω : (v - v) / WHEELBASE_CM = 0 := by rw [sub_self, zero_div]
  simp only [hv, hω]
  obtain ⟨hx, hy, hth⟩ :=
    advStep_iter_straight v (dt / ((max 1 ⌈dt / 0.02⌉₊ : ℕ) : ℝ))
      (max 1 ⌈dt / 0.02⌉₊) ⟨f.pose.x, f.pose.y, f.pose.th, f.path⟩
  have hn : ((max 1 ⌈dt / 0.02⌉₊ : ℕ) : ℝ) ≠ 0 := by
    have h1 : 1 ≤ max 1 ⌈dt / 0.02⌉₊ := le_max_left _ _
    exact_mod_cast Nat.one_le_iff_ne_zero.mp h1
  refine ⟨?_, ?_, ?_⟩
  · rw [hx]
    field_simp
  · rw [hy]
    field_simp
  · exact hth

lemma advance_pivot (vl vr dt : ℝ) (f : Finch) (hv : vl + vr = 0) :
    (advance vl vr dt f).pose.x = f.pose.x ∧
      (advance vl vr dt f).pose.y = f.pose.y ∧
      ∀ q ∈ (advance vl vr dt f).path, q ∈ f.path ∨ q = (f.pose.x, f.pose.y) := by
  by_cases hdt : dt ≤ 0
  · rw [advance_nonpos _ _ _ _ hdt]
    exact ⟨rfl, rfl, fun q hq => Or.inl hq⟩
  · rw [advance, if_neg hdt]
    have h0 : (0.5 : ℝ) * (vl + vr) = 0 := by rw [hv]; ring
    simp only [h0]
    exact advStep_iter_pivot _ _ _ ⟨f.pose.x, f.pose.y, f.pose.th, f.path⟩

/-! ## Lemmas about `maybeRender`, the commands and event sequences -/

lemma maybeRender_of_closed (f : Finch) (h : f.closed = true) :
    maybeRender f = (f, false) := by
  rw [maybeRender, if_pos h]

lemma maybeRender_fst_closed (f : Finch) : (maybeRender f).1.closed = true := by
  simp only [maybeRender]
  split
  · assumption
  · split <;> rfl

lemma maybeRender_fst_pose (f : Finch) : (maybeRender f).1.pose = f.pose := by
  simp only [maybeRender]
  split
  · rfl
  · split <;> rfl

lemma maybeRender_fst_path (f : Finch) : (maybeRender f).1.path = f.path := by
  simp only [maybeRender]
  split
  · rfl
  · split <;> rfl

lemma maybeRender_short (f : Finch) (h : f.path.length < 2) :
    (maybeRender f).2 = false := by
  simp only [maybeRender]
  split
  · rfl
  · simp [h]

lemma setMove_eq_advance_or_id (dir : MoveDir) (dist speed : ℝ) (f : Finch) :
    setMove dir dist speed f = f ∨
      ∃ vl vr dt, setMove dir dist speed f = advance vl vr dt f := by
  cases dir <;> (simp only [setMove]; split)
  · exact Or.inl rfl
  · exact Or.inr ⟨_, _, _, rfl⟩
  · exact Or.inl rfl
  · exact Or.inr ⟨_, _, _, rfl⟩

lemma setTurn_eq_advance_or_id (dir : TurnDir) (dg dps : ℝ) (f : Finch) :
    setTurn dir dg dps f = f ∨
      ∃ vl vr dt, setTurn dir dg dps f = advance vl vr dt f := by
  cases dir <;> (simp only [setTurn]; split)
  · exact Or.inl rfl
  · exact Or.inr ⟨_, _, _, rfl⟩
  · exact Or.inl rfl
  · exact Or.inr ⟨_, _, _, rfl⟩

lemma applyCmd_eq_advance_or_id (c : Cmd) (f : Finch) :
    applyCmd c f = f ∨ ∃ vl vr dt, applyCmd c f = advance vl vr dt f := by
  cases c with
  | wheels l r d =>
    cases d with
    | none => exact Or.inl rfl
    | some d => exact Or.inr ⟨_, _, _, rfl⟩
  | move dir dist speed => exact setMove_eq_advance_or_id dir dist speed f
  | turn dir dg dps => exact setTurn_eq_advance_or_id dir dg dps f

lemma applyCmd_closed (c : Cmd) (f : Finch) :
    (applyCmd c f).closed = f.closed := by
  rcases applyCmd_eq_advance_or_id c f with h | ⟨vl, vr, dt, h⟩
  · rw [h]
  · rw [h, advance_closed]

lemma applyCmd_path_append (c : Cmd) (f : Finch) :
    ∃ t, (applyCmd c f).path = f.path ++ t := by
  rcases applyCmd_eq_advance_or_id c f with h | ⟨vl, vr, dt, h⟩
  · exact ⟨[], by rw [h, List.append_nil]⟩
  · rw [h]
    exact advance_path_append vl vr dt f

lemma applyCmd_getLast (c : Cmd) (f : Finch)
    (h0 : f.path.getLast? = some (f.pose.x, f.pose.y)) :
    (applyCmd c f).path.getLast? =
      some ((applyCmd c f).pose.x, (applyCmd c f).pose.y) := by
  rcases applyCmd_eq_advance_or_id c f with h | ⟨vl, vr, dt, h⟩
  · rw [h]
    exact h0
  · rw [h]
    exact advance_getLast vl vr dt f h0

lemma evStep_fst_path_append (s : Finch × ℕ) (e : Event) :
    ∃ t, (evStep s e).1.path = s.1.path ++ t := by
  cases e with
  | cmd c => exact applyCmd_path_append c s.1
  | trigger => exact ⟨[], by rw [evStep, maybeRender_fst_path, List.append_nil]⟩

lemma evStep_getLast (s : Finch × ℕ) (e : Event)
    (h0 : s.1.path.getLast? = some (s.1.pose.x, s.1.pose.y)) :
    (evStep s e).1.path.getLast? =
      some ((evStep s e).1.pose.x, (evStep s e).1.pose.y) := by
  cases e with
  | cmd c => exact applyCmd_getLast c s.1 h0
  | trigger => rw [evStep, maybeRender_fst_path, maybeRender_fst_pose]; exact h0

lemma runE_fst_path_append (es : List Event) (s : Finch × ℕ) :
    ∃ t, (runE es s).1.path = s.1.path ++ t := by
  induction es generalizing s with
  | nil => exact ⟨[], (List.append_nil _).symm⟩
  | cons e es ih =>
    obtain ⟨t1, h1⟩ := evStep_fst_path_append s e
    obtain ⟨t2, h2⟩ := ih (evStep s e)
    exact ⟨t1 ++ t2, by rw [runE, List.foldl_cons, ← runE, h2, h1, List.append_assoc]⟩

lemma runE_getLast (es : List Event) (s : Finch × ℕ)
    (h0 : s.1.path.getLast? = some (s.1.pose.x, s.1.pose.y)) :
    (runE es s).1.path.getLast? =
      some ((runE es s).1.pose.x, (runE es s).1.pose.y) := by
  induction es generalizing s with
  | nil => exact h0
  | cons e es ih =>
    rw [runE, List.foldl_cons, ← runE]
    exact ih (evStep s e) (evStep_getLast s e h0)

lemma runE_count_le_one (es : List Event) (s : Finch × ℕ) (h1 : s.2 ≤ 1)
    (h2 : s.1.closed = false → s.2 = 0) : (runE es s).2 ≤ 1 := by
  induction es generalizing s with
  | nil => exact h1
  | cons e es ih =>
    rw [runE, List.foldl_cons, ← runE]
    cases e with
    | cmd c =>
      refine ih (applyCmd c s.1, s.2) h1 ?_
      intro hc
      rw [applyCmd_closed] at hc
      exact h2 hc
    | trigger =>
      refine ih _ ?_ ?_
      · show s.2 + (if (maybeRender s.1).2 then 1 else 0) ≤ 1
        by_cases hc : s.1.closed = true
        · rw [maybeRender_of_closed s.1 hc]
          simpa using h1
        · have : s.2 = 0 := h2 (by simpa using hc)
          rw [this]
          split <;> norm_num
      · intro hc
        rw [show (evStep s Event.trigger).1 = (maybeRender s.1).1 from rfl,
          maybeRender_fst_closed] at hc
        cases hc

lemma runE_count_of_closed (es : List Event) (s : Finch × ℕ)
    (h : s.1.closed = true) : (runE es s).2 = s.2 := by
  induction es generalizing s with
  | nil => rfl
  | cons e es ih =>
    rw [runE, List.foldl_cons, ← runE]
    cases e with
    | cmd c =>
      exact ih (applyCmd c s.1, s.2) (by rw [applyCmd_closed]; exact h)
    | trigger =>
      have hr : maybeRender s.1 = (s.1, false) := maybeRender_of_closed s.1 h
      have : evStep s Event.trigger = (s.1, s.2) := by
        rw [evStep, hr]
        simp
      rw [this]
      exact ih (s.1, s.2) h

/-! ## Lemmas about `pyMin`/`pyMax` and `bounds` -/

lemma foldl_min_le_init (xs : List ℝ) (a : ℝ) : xs.foldl min a ≤ a := by
  induction xs generalizing a with
  | nil => exact le_refl a
  | cons x xs ih =>
    rw [List.foldl_cons]
    exact le_trans (ih (min a x)) (min_le_left a x)

lemma foldl_min_le_mem (xs : List ℝ) (a x : ℝ) (hx : x ∈ xs) :
    xs.foldl min a ≤ x := by
  induction xs generalizing a with
  | nil => cases hx
  | cons y ys ih =>
    rw [List.foldl_cons]
    rcases List.mem_cons.mp hx with rfl | hmem
    · exact le_trans (foldl_min_le_init ys (min a x)) (min_le_right a x)
    · exact ih (min a y) hmem

lemma le_foldl_max_init (xs : List ℝ) (a : ℝ) : a ≤ xs.foldl max a := by
  induction xs generalizing a with
  | nil => exact le_refl a
  | cons x xs ih =>
    rw [List.foldl_cons]
    exact le_trans (le_max_left a x) (ih (max a x))

lemma le_foldl_max_mem (xs : List ℝ) (a x : ℝ) (hx : x ∈ xs) :
    x ≤ xs.foldl max a := by
  induction xs generalizing a with
  | nil => cases hx
  | cons y ys ih =>
    rw [List.foldl_cons]
    rcases List.mem_cons.mp hx with rfl | hmem
    · exact le_trans (le_max_right a x) (le_foldl_max_init ys (max a x))
    · exact ih (max a y) hmem

lemma pyMin_le (xs : List ℝ) (x : ℝ) (hx : x ∈ xs) : pyMin xs ≤ x := by
  cases xs with
  | nil => cases hx
  | cons y ys =>
    rw [pyMin]
    rcases List.mem_cons.mp hx with rfl | hmem
    · exact foldl_min_le_init ys x
    · exact foldl_min_le_mem ys y x hmem

lemma le_pyMax (xs : List ℝ) (x : ℝ) (hx : x ∈ xs) : x ≤ pyMax xs := by
  cases xs with
  | nil => cases hx
  | cons y ys =>
    rw [pyMax]
    rcases List.mem_cons.mp hx with rfl | hmem
    · exact le_foldl_max_init ys x
    · exact le_foldl_max_mem ys y x hmem

lemma runE_append (es es' : List Event) (s : Finch × ℕ) :
    runE (es ++ es') s = runE es' (runE es s) := by
  rw [runE, runE, runE, List.foldl_append]

/-! ## Claim theorems -/

/-- C6: across every sequence of render triggers (`close()` calls and/or the
process-exit hook), interleaved with arbitrary motion commands, the guarded
one-shot flag ensures at most one render is attempted on a robot instance, so
at most one write attempt is made to each of the two output files. -/
theorem claimC6 (es : List Event) : (runE es (initFinch, 0)).2 ≤ 1 :=
  runE_count_le_one es (initFinch, 0) (by norm_num) (fun _ => rfl)

/-- C7: when the path has fewer than 2 points, triggering the render via
`close()` (or the exit hook, which calls the same `_maybe_render`) skips
rendering entirely: no output file write is attempted (and the embedded
functions are total, so no exception is raised). -/
theorem claimC7 (f : Finch) (h : f.path.length < 2) :
    (close f).2 = false ∧ (maybeRender f).2 = false :=
  ⟨maybeRender_short f h, maybeRender_short f h⟩

/-- Witness for C7 at the freshly constructed robot, whose path `[(0,0)]` has
a single point. -/
theorem claimC7_witness :
    initFinch.path.length < 2 ∧
      ((close initFinch).2 = false ∧ (maybeRender initFinch).2 = false) :=
  ⟨by simp [initFinch], claimC7 initFinch (by simp [initFinch])⟩

/-- C9: after construction and after every sequence of public commands and
render triggers, the last element of the path is exactly the `(x, y)` of the
current pose. -/
theorem claimC9 (es : List Event) :
    (runE es (initFinch, 0)).1.path.getLast? =
      some ((runE es (initFinch, 0)).1.pose.x, (runE es (initFinch, 0)).1.pose.y) :=
  runE_getLast es (initFinch, 0) (by simp [initFinch])

/-- C10: the render guard flag is set before the path-length check, so a
trigger that fires while the path has fewer than 2 points consumes the single
render opportunity: the render is skipped, and every later trigger — even
after further motion commands have grown the path — attempts no write. -/
theorem claimC10 (f : Finch) (h : f.path.length < 2) :
    (maybeRender f).2 = false ∧
      ∀ es, (runE es ((maybeRender f).1, 0)).2 = 0 :=
  ⟨maybeRender_short f h,
    fun es => runE_count_of_closed es _ (maybeRender_fst_closed f)⟩

/-- Witness for C10: a fresh robot is closed early, then moves and is closed
again; the second close attempts no write. -/
theorem claimC10_witness :
    initFinch.path.length < 2 ∧
      (maybeRender initFinch).2 = false ∧
      (runE [Event.cmd (Cmd.move MoveDir.F 20 10), Event.trigger]
        ((maybeRender initFinch).1, 0)).2 = 0 := by
  have h : initFinch.path.length < 2 := by simp [initFinch]
  exact ⟨h, (claimC10 initFinch h).1, (claimC10 initFinch h).2 _⟩

/-- C8: the path starts as `[(0, 0)]`, every public operation only appends to
it, and hence across any sequence of commands and triggers the path is
never empty, always starts at the origin, its length is monotonically
non-decreasing, and every earlier path is a prefix (an append-initial
segment) of every later one. -/
theorem claimC8 :
    initFinch.path = [(0, 0)] ∧
      (∀ c f, ∃ t, (applyCmd c f).path = f.path ++ t) ∧
      (∀ es es', ∃ t,
        (runE (es ++ es') (initFinch, 0)).1.path =
          (runE es (initFinch, 0)).1.path ++ t) ∧
      (∀ es, (runE es (initFinch, 0)).1.path.head? = some (0, 0) ∧
        (runE es (initFinch, 0)).1.path ≠ []) ∧
      (∀ es es', (runE es (initFinch, 0)).1.path.length ≤
        (runE (es ++ es') (initFinch, 0)).1.path.length) := by
  have happ : ∀ es es', ∃ t,
      (runE (es ++ es') (initFinch, 0)).1.path =
        (runE es (initFinch, 0)).1.path ++ t := by
    intro es es'
    rw [runE_append]
    exact runE_fst_path_append es' (runE es (initFinch, 0))
  have hpre : ∀ es, ∃ t, (runE es (initFinch, 0)).1.path = [((0 : ℝ), (0 : ℝ))] ++ t := by
    intro es
    obtain ⟨t, ht⟩ := runE_fst_path_append es (initFinch, 0)
    exact ⟨t, ht⟩
  refine ⟨rfl, applyCmd_path_append, happ, ?_, ?_⟩
  · intro es
    obtain ⟨t, ht⟩ := hpre es
    rw [ht]
    exact ⟨rfl, by simp⟩
  · intro es es'
    obtain ⟨t, ht⟩ := happ es es'
    rw [ht, List.length_append]
    exact Nat.le_add_right _ _

/-! ## No-op lemmas for the command layer (claim C2) -/

lemma setMove_zero_speed (dir : MoveDir) (dist : ℝ) (f : Finch) :
    setMove dir dist 0 f = f := by
  cases dir <;> simp [setMove]

lemma setMove_zero_dist (dir : MoveDir) (speed : ℝ) (f : Finch) :
    setMove dir 0 speed f = f := by
  cases dir <;> (simp only [setMove]; split)
  · rfl
  · exact advance_nonpos _ _ _ f (by simp)
  · rfl
  · exact advance_nonpos _ _ _ f (by simp)

lemma setTurn_zero_speed (dir : TurnDir) (dg : ℝ) (f : Finch) :
    setTurn dir dg 0 f = f := by
  cases dir <;> simp [setTurn]

lemma setTurn_zero_deg (dir : TurnDir) (dps : ℝ) (f : Finch) :
    setTurn dir 0 dps f = f := by
  cases dir <;> (simp only [setTurn]; split)
  · rfl
  · exact advance_nonpos _ _ _ f (by simp [radians])
  · rfl
  · exact advance_nonpos _ _ _ f (by simp [radians])

/-- C2 (amended): every call with a non-positive (computed or supplied)
duration — `wheels` with the duration omitted or `≤ 0`, `setMove` with zero
distance, `setTurn` with zero degrees — and every call with supplied speed
equal to `0` leaves pose and path completely unchanged; no error is signaled
(the operations are total).  The original claim's "speed `<= 0`" had to be
narrowed to "speed `= 0`" because `setMove`/`setTurn` take the absolute value
of the speed, so a negative speed moves the robot like its magnitude. -/
theorem claimC2 (c : Cmd) (f : Finch) (h : NoOpCond c) : applyCmd c f = f := by
  cases c with
  | wheels l r d =>
    cases d with
    | none => rfl
    | some d => exact advance_nonpos l r d f h
  | move dir dist speed =>
    rcases h with hs | hd
    · rw [hs]
      exact setMove_zero_speed dir dist f
    · rw [hd]
      exact setMove_zero_dist dir speed f
  | turn dir dg dps =>
    rcases h with hs | hd
    · rw [hs]
      exact setTurn_zero_speed dir dg f
    · rw [hd]
      exact setTurn_zero_deg dir dps f

/-- Witness for C2: `wheels` with the duration argument omitted is a no-op. -/
theorem claimC2_witness :
    NoOpCond (Cmd.wheels 3 4 none) ∧
      applyCmd (Cmd.wheels 3 4 none) initFinch = initFinch :=
  ⟨trivial, claimC2 (Cmd.wheels 3 4 none) initFinch trivial⟩

/-- Counterexample to C2 as stated: `setMove(F, 10, -5)` has supplied speed
`-5 ≤ 0`, yet the robot moves 10 cm (the code takes `abs(speed)`), so the
pose is not left unchanged. -/
theorem claimC2_cex :
    (setMove MoveDir.F 10 (-5) initFinch).pose.x ≠ initFinch.pose.x := by
  have h1 : setMove MoveDir.F 10 (-5) initFinch = advance 5 5 2 initFinch := by
    simp only [setMove]
    norm_num
  obtain ⟨hx, -, -⟩ := advance_straight 5 2 initFinch (by norm_num)
  rw [h1, hx]
  simp only [initFinch, Real.cos_zero]
  norm_num

/-! ## Straight-move pose lemmas (claim C4) -/

lemma setMove_forward_pose (d s : ℝ) (f : Finch) (hd : 0 < d) (hs : 0 < s) :
    (setMove MoveDir.F d s f).pose.x = f.pose.x + d * Real.cos f.pose.th ∧
      (setMove MoveDir.F d s f).pose.y = f.pose.y + d * Real.sin f.pose.th ∧
      (setMove MoveDir.F d s f).pose.th = f.pose.th := by
  have habs : |s| = s := abs_of_pos hs
  have heq : setMove MoveDir.F d s f = advance s s (d / s) f := by
    simp only [setMove, mul_one]
    rw [if_neg (by rw [habs]; exact not_le.mpr hs)]
    rw [if_pos (le_of_lt hd), habs, mul_one, abs_of_pos hd]
  obtain ⟨hx, hy, hth⟩ := advance_straight s (d / s) f (div_pos hd hs)
  rw [heq, hx, hy, hth]
  have hds : s * (d / s) = d := by field_simp
  rw [hds]
  exact ⟨rfl, rfl, rfl⟩

lemma setMove_backward_pose (d s : ℝ) (f : Finch) (hd : 0 < d) (hs : 0 < s) :
    (setMove MoveDir.B d s f).pose.x = f.pose.x - d * Real.cos f.pose.th ∧
      (setMove MoveDir.B d s f).pose.y = f.pose.y - d * Real.sin f.pose.th ∧
      (setMove MoveDir.B d s f).pose.th = f.pose.th := by
  have habs : |s| = s := abs_of_pos hs
  have heq : setMove MoveDir.B d s f = advance (-s) (-s) (d / s) f := by
    simp only [setMove, mul_neg_one]
    rw [if_neg (by rw [habs]; exact not_le.mpr hs)]
    rw [if_neg (by simpa using hd), habs, abs_neg, abs_of_pos hd]
    norm_num
  obtain ⟨hx, hy, hth⟩ := advance_straight (-s) (d / s) f (div_pos hd hs)
  rw [heq, hx, hy, hth]
  have hds : -s * (d / s) = -d := by
    field_simp
    ring
  rw [hds]
  refine ⟨by ring, by ring, rfl⟩

/-- C4: for every distance `d ≥ 0`, speed `s > 0` and starting pose,
`setMove(F, d, s)` followed by `setMove(B, d, s)` returns the pose exactly to
its starting `(x, y, th)` (exact equality in the real-number model, hence a
fortiori within floating-point tolerance); in particular each straight move
leaves the heading unchanged exactly. -/
theorem claimC4 (d s : ℝ) (f : Finch) (hd : 0 ≤ d) (hs : 0 < s) :
    (setMove MoveDir.B d s (setMove MoveDir.F d s f)).pose.x = f.pose.x ∧
      (setMove MoveDir.B d s (setMove MoveDir.F d s f)).pose.y = f.pose.y ∧
      (setMove MoveDir.B d s (setMove MoveDir.F d s f)).pose.th = f.pose.th ∧
      (setMove MoveDir.F d s f).pose.th = f.pose.th ∧
      (setMove MoveDir.B d s f).pose.th = f.pose.th := by
  rcases eq_or_lt_of_le hd with rfl | hd'
  · rw [setMove_zero_dist, setMove_zero_dist, setMove_zero_dist]
    exact ⟨rfl, rfl, rfl, rfl, rfl⟩
  · obtain ⟨fx, fy, fth⟩ := setMove_forward_pose d s f hd' hs
    obtain ⟨bx, hby, bth⟩ :=
      setMove_backward_pose d s (setMove MoveDir.F d s f) hd' hs
    obtain ⟨-, -, bth2⟩ := setMove_backward_pose d s f hd' hs
    rw [bx, hby, bth, fx, fy, fth]
    exact ⟨by ring, by ring, rfl, rfl, bth2⟩

/-- Witness for C4 at `d = 20`, `s = 10` from the initial pose. -/
theorem claimC4_witness :
    (0 : ℝ) ≤ 20 ∧ (0 : ℝ) < 10 ∧
      (setMove MoveDir.B 20 10 (setMove MoveDir.F 20 10 initFinch)).pose.x =
        initFinch.pose.x ∧
      (setMove MoveDir.B 20 10 (setMove MoveDir.F 20 10 initFinch)).pose.y =
        initFinch.pose.y ∧
      (setMove MoveDir.B 20 10 (setMove MoveDir.F 20 10 initFinch)).pose.th =
        initFinch.pose.th := by
  obtain ⟨h1, h2, h3, -, -⟩ :=
    claimC4 20 10 initFinch (by norm_num) (by norm_num)
  exact ⟨by norm_num, by norm_num, h1, h2, h3⟩

/-! ## Pivot-turn lemmas (claim C3) -/

lemma radians_pos (x : ℝ) (hx : 0 < x) : 0 < radians x :=
  mul_pos hx (div_pos Real.pi_pos (by norm_num))

lemma setTurn_left_eq (degrees dps : ℝ) (f : Finch) (hdeg : 0 < degrees)
    (hdps : 0 < dps) :
    setTurn TurnDir.L degrees dps f =
      advance (-(0.5 * radians dps * WHEELBASE_CM))
        (0.5 * radians dps * WHEELBASE_CM) (radians degrees / radians dps) f := by
  have h1 : |dps| = dps := abs_of_pos hdps
  have h2 : |radians dps| = radians dps := abs_of_pos (radians_pos dps hdps)
  have h3 : |radians degrees| = radians degrees :=
    abs_of_pos (radians_pos degrees hdeg)
  simp only [setTurn, mul_one, h1]
  rw [if_neg (not_le.mpr hdps)]
  simp only [if_pos (le_of_lt hdeg), mul_one, h2, h3]

lemma setTurn_right_eq (degrees dps : ℝ) (f : Finch) (hdeg : 0 < degrees)
    (hdps : 0 < dps) :
    setTurn TurnDir.R degrees dps f =
      advance (0.5 * radians dps * WHEELBASE_CM)
        (-(0.5 * radians dps * WHEELBASE_CM)) (radians degrees / radians dps) f := by
  have h1 : |dps| = dps := abs_of_pos hdps
  have h2 : |radians dps| = radians dps := abs_of_pos (radians_pos dps hdps)
  have h3 : |radians (-degrees)| = radians degrees := by
    rw [show radians (-degrees) = -(radians degrees) by rw [radians, radians]; ring,
      abs_neg, abs_of_pos (radians_pos degrees hdeg)]
  have hneg : ¬(0 : ℝ) ≤ -degrees := not_le.mpr (neg_lt_zero.mpr hdeg)
  simp only [setTurn, h1]
  rw [if_neg (not_le.mpr hdps)]
  simp only [if_neg hneg, mul_neg_one, abs_neg, h2, h3]

/-- C3: for both directions, positive degrees and positive angular speed,
`setTurn` drives the two wheels at exactly opposite speeds of magnitude
`s = 0.5*|omega|*wheelbase` (left wheel `-s`, right wheel `+s` for a left
turn, mirrored for a right turn), and the resulting motion is a pure in-place
pivot: the pose's `(x, y)` after the call equals the position before it, and
every point appended to the path during the call equals that position. -/
theorem claimC3 (dir : TurnDir) (degrees dps : ℝ) (f : Finch)
    (hdeg : 0 < degrees) (hdps : 0 < dps) :
    (setTurn dir degrees dps f =
      advance
        (match dir with
          | TurnDir.L => -(0.5 * radians dps * WHEELBASE_CM)
          | TurnDir.R => 0.5 * radians dps * WHEELBASE_CM)
        (match dir with
          | TurnDir.L => 0.5 * radians dps * WHEELBASE_CM
          | TurnDir.R => -(0.5 * radians dps * WHEELBASE_CM))
        (radians degrees / radians dps) f) ∧
      (setTurn dir degrees dps f).pose.x = f.pose.x ∧
      (setTurn dir degrees dps f).pose.y = f.pose.y ∧
      ∀ q ∈ (setTurn dir degrees dps f).path,
        q ∈ f.path ∨ q = (f.pose.x, f.pose.y) := by
  cases dir with
  | L =>
    have heq := setTurn_left_eq degrees dps f hdeg hdps
    have hpiv := advance_pivot (-(0.5 * radians dps * WHEELBASE_CM))
      (0.5 * radians dps * WHEELBASE_CM) (radians degrees / radians dps) f
      (by ring)
    rw [heq]
    exact ⟨rfl, hpiv⟩
  | R =>
    have heq := setTurn_right_eq degrees dps f hdeg hdps
    have hpiv := advance_pivot (0.5 * radians dps * WHEELBASE_CM)
      (-(0.5 * radians dps * WHEELBASE_CM)) (radians degrees / radians dps) f
      (by ring)
    rw [heq]
    exact ⟨rfl, hpiv⟩

/-- Witness for C3: a left 90-degree turn at 30 deg/s from the initial pose
leaves the position unchanged. -/
theorem claimC3_witness :
    (0 : ℝ) < 90 ∧ (0 : ℝ) < 30 ∧
      (setTurn TurnDir.L 90 30 initFinch).pose.x = initFinch.pose.x ∧
      (setTurn TurnDir.L 90 30 initFinch).pose.y = initFinch.pose.y := by
  obtain ⟨-, hx, hy, -⟩ :=
    claimC3 TurnDir.L 90 30 initFinch (by norm_num) (by norm_num)
  exact ⟨by norm_num, by norm_num, hx, hy⟩

/-- C5: on every non-empty path, `_bounds` returns the view rectangle built
from the min/max of `x` and `y` over all path points, with each axis's span
guarded by the minimum extent `1e-6` and padded by 10% of the (guarded) span
on both sides; the returned width and height are strictly positive, and the
whole rectangle contains every path point. -/
theorem claimC5 (path : List (ℝ × ℝ)) (_hne : path ≠ []) :
    0 < (bounds path).2.2.1 ∧ 0 < (bounds path).2.2.2 ∧
      (bounds path).1 = pyMin (path.map Prod.fst) -
        max 1e-6 (pyMax (path.map Prod.fst) - pyMin (path.map Prod.fst)) * 0.1 ∧
      (bounds path).2.1 = pyMin (path.map Prod.snd) -
        max 1e-6 (pyMax (path.map Prod.snd) - pyMin (path.map Prod.snd)) * 0.1 ∧
      (bounds path).2.2.1 =
        max 1e-6 (pyMax (path.map Prod.fst) - pyMin (path.map Prod.fst)) * 1.2 ∧
      (bounds path).2.2.2 =
        max 1e-6 (pyMax (path.map Prod.snd) - pyMin (path.map Prod.snd)) * 1.2 ∧
      ∀ p ∈ path,
        (bounds path).1 ≤ p.1 ∧
          p.1 ≤ (bounds path).1 + (bounds path).2.2.1 ∧
          (bounds path).2.1 ≤ p.2 ∧
          p.2 ≤ (bounds path).2.1 + (bounds path).2.2.2 := by
  have hdx : (0 : ℝ) <
      max 1e-6 (pyMax (path.map Prod.fst) - pyMin (path.map Prod.fst)) :=
    lt_of_lt_of_le (by norm_num) (le_max_left _ _)
  have hdy : (0 : ℝ) <
      max 1e-6 (pyMax (path.map Prod.snd) - pyMin (path.map Prod.snd)) :=
    lt_of_lt_of_le (by norm_num) (le_max_left _ _)
  have hsx : pyMax (path.map Prod.fst) - pyMin (path.map Prod.fst) ≤
      max 1e-6 (pyMax (path.map Prod.fst) - pyMin (path.map Prod.fst)) :=
    le_max_right _ _
  have hsy : pyMax (path.map Prod.snd) - pyMin (path.map Prod.snd) ≤
      max 1e-6 (pyMax (path.map Prod.snd) - pyMin (path.map Prod.snd)) :=
    le_max_right _ _
  refine ⟨?_, ?_, rfl, rfl, ?_, ?_, ?_⟩
  · show 0 <
      max 1e-6 (pyMax (path.map Prod.fst) - pyMin (path.map Prod.fst)) *
        (1 + 2 * (0.1 : ℝ))
    exact mul_pos hdx (by norm_num)
  · show 0 <
      max 1e-6 (pyMax (path.map Prod.snd) - pyMin (path.map Prod.snd)) *
        (1 + 2 * (0.1 : ℝ))
    exact mul_pos hdy (by norm_num)
  · show max 1e-6 (pyMax (path.map Prod.fst) - pyMin (path.map Prod.fst)) *
        (1 + 2 * (0.1 : ℝ)) = _ * 1.2
    norm_num
  · show max 1e-6 (pyMax (path.map Prod.snd) - pyMin (path.map Prod.snd)) *
        (1 + 2 * (0.1 : ℝ)) = _ * 1.2
    norm_num
  · intro p hp
    have hminx : pyMin (path.map Prod.fst) ≤ p.1 :=
      pyMin_le _ p.1 (List.mem_map_of_mem Prod.fst hp)
    have hmaxx : p.1 ≤ pyMax (path.map Prod.fst) :=
      le_pyMax _ p.1 (List.mem_map_of_mem Prod.fst hp)
    have hminy : pyMin (path.map Prod.snd) ≤ p.2 :=
      pyMin_le _ p.2 (List.mem_map_of_mem Prod.snd hp)
    have hmaxy : p.2 ≤ pyMax (path.map Prod.snd) :=
      le_pyMax _ p.2 (List.mem_map_of_mem Prod.snd hp)
    refine ⟨?_, ?_, ?_, ?_⟩
    · show pyMin (path.map Prod.fst) -
        max 1e-6 (pyMax (path.map Prod.fst) - pyMin (path.map Prod.fst)) *
          (0.1 : ℝ) ≤ p.1
      nlinarith
    · show p.1 ≤ pyMin (path.map Prod.fst) -
        max 1e-6 (pyMax (path.map Prod.fst) - pyMin (path.map Prod.fst)) *
          (0.1 : ℝ) +
        max 1e-6 (pyMax (path.map Prod.fst) - pyMin (path.map Prod.fst)) *
          (1 + 2 * (0.1 : ℝ))
      nlinarith
    · show pyMin (path.map Prod.snd) -
        max 1e-6 (pyMax (path.map Prod.snd) - pyMin (path.map Prod.snd)) *
          (0.1 : ℝ) ≤ p.2
      nlinarith
    · show p.2 ≤ pyMin (path.map Prod.snd) -
        max 1e-6 (pyMax (path.map Prod.snd) - pyMin (path.map Prod.snd)) *
          (0.1 : ℝ) +
        max 1e-6 (pyMax (path.map Prod.snd) - pyMin (path.map Prod.snd)) *
          (1 + 2 * (0.1 : ℝ))
      nlinarith

/-- Witness for C5 on the concrete two-point path `[(0,0), (1,2)]`. -/
theorem claimC5_witness :
    ([((0 : ℝ), (0 : ℝ)), (1, 2)] : List (ℝ × ℝ)) ≠ [] ∧
      0 < (bounds [((0 : ℝ), (0 : ℝ)), (1, 2)]).2.2.1 ∧
      0 < (bounds [((0 : ℝ), (0 : ℝ)), (1, 2)]).2.2.2 := by
  have h := claimC5 [((0 : ℝ), (0 : ℝ)), (1, 2)] (by simp)
  exact ⟨by simp, h.1, h.2.1⟩

/-! ## Integrator refinement (claim C1) -/

lemma advStep_eq_specStepG : advStep = specStepG := by
  funext v ω h s
  rw [advStep, specStepG]

/-- C1 (amended): for every call funneling into `_advance` with duration
`dt > 0`, the integrator computes `v = (vl+vr)/2` and `omega = (vr-vl)/10`,
splits `dt` into `N = ceil(dt/0.02)` equal substeps (`N ≥ 1` even for very
short durations) of length `h = dt/N`, and per substep performs the claimed
straight-line update when `|omega|` is below epsilon and otherwise the arc
update with turning radius `v/omega` — amended: the radius is `v/omega` only
when `|v| > 1e-12` and `0` otherwise — appending `(x, y)` to the path after
every substep, so the path grows by exactly `N` points. -/
theorem claimC1 (vl vr dt : ℝ) (f : Finch) (hdt : 0 < dt) :
    advance vl vr dt f = specAdvanceG vl vr dt f ∧
      (advance vl vr dt f).path.length = f.path.length + ⌈dt / 0.02⌉₊ ∧
      1 ≤ ⌈dt / 0.02⌉₊ := by
  have hone : 1 ≤ ⌈dt / 0.02⌉₊ :=
    Nat.one_le_ceil_iff.mpr (div_pos hdt (by norm_num))
  have hsteps : max 1 ⌈dt / 0.02⌉₊ = ⌈dt / 0.02⌉₊ := max_eq_right hone
  refine ⟨?_, ?_, hone⟩
  · rw [advance, if_neg (not_le.mpr hdt), specAdvanceG]
    have hv : (0.5 : ℝ) * (vl + vr) = (vl + vr) / 2 := by ring
    have hω : (vr - vl) / WHEELBASE_CM = (vr - vl) / 10 := by
      rw [WHEELBASE_CM]
      norm_num
    simp only [hv, hω, hsteps, advStep_eq_specStepG]
  · rw [advance_length_pos vl vr dt f hdt, hsteps]

/-- Witness for C1 (amended) at `vl = 2`, `vr = 3`, `dt = 1` from the initial
state. -/
theorem claimC1_witness :
    (0 : ℝ) < 1 ∧
      advance 2 3 1 initFinch = specAdvanceG 2 3 1 initFinch ∧
      (advance 2 3 1 initFinch).path.length =
        initFinch.path.length + ⌈(1 : ℝ) / 0.02⌉₊ := by
  obtain ⟨h1, h2, -⟩ := claimC1 2 3 1 initFinch (by norm_num)
  exact ⟨by norm_num, h1, h2⟩

/-- Counterexample to C1 as stated: at `vl = -1`, `vr = 1 + 2e-13`,
`dt = 0.02` the mean wheel speed is `v = 1e-13`, so the source's guard
`abs(v) > 1e-12` zeroes the turning radius while the claim's unguarded
`v/omega` radius moves `x` by a positive amount; the integrator does not
compute the update the claim describes. -/
theorem claimC1_cex :
    advance (-1) (1 + 2e-13) 0.02 initFinch ≠
      specAdvance (-1) (1 + 2e-13) 0.02 initFinch := by
  intro hEq
  have hx : (advance (-1) (1 + 2e-13) 0.02 initFinch).pose.x =
      (specAdvance (-1) (1 + 2e-13) 0.02 initFinch).pose.x :=
    congrArg (fun g => g.pose.x) hEq
  have hsteps : max 1 ⌈(0.02 : ℝ) / 0.02⌉₊ = 1 := by
    rw [show (0.02 : ℝ) / 0.02 = 1 by norm_num, Nat.ceil_one, max_self]
  have hN : ⌈(0.02 : ℝ) / 0.02⌉₊ = 1 := by
    rw [show (0.02 : ℝ) / 0.02 = 1 by norm_num, Nat.ceil_one]
  have hL : (advance (-1) (1 + 2e-13) 0.02 initFinch).pose.x = 0 := by
    rw [advance, if_neg (by norm_num : ¬(0.02 : ℝ) ≤ 0)]
    norm_num [WHEELBASE_CM, hsteps, Function.iterate_one, advStep, initFinch,
      abs_of_nonneg]
  have hR : (specAdvance (-1) (1 + 2e-13) 0.02 initFinch).pose.x =
      1e-13 / (0.2 + 2e-14) * Real.sin ((0.2 + 2e-14) * 0.02) := by
    rw [specAdvance]
    norm_num [hN, Function.iterate_one, specStep, initFinch, Real.sin_zero,
      abs_of_nonneg]
  rw [hL, hR] at hx
  have hsin : 0 < Real.sin ((0.2 + 2e-14) * 0.02) := by
    apply Real.sin_pos_of_pos_of_lt_pi
    · norm_num
    · calc ((0.2 + 2e-14) * 0.02 : ℝ) < 3.141592 := by norm_num
        _ < Real.pi := Real.pi_gt_d6
  have hpos : 0 < 1e-13 / (0.2 + 2e-14) * Real.sin ((0.2 + 2e-14) * 0.02) :=
    mul_pos (by positivity) hsin
  exact absurd hx.symm (ne_of_gt hpos)

end

end FinchDraw
